import Mathlib

/-!
Verification development for the tabnab guard layer: policy evaluation
(domain/path allowlisting, sensitivity classification), confirmation-token
lifecycle, redacting audit log, per-session action budget, and stable tab
identity.  Each TypeScript function named in a definition's doc comment is
embedded as an executable Lean function; theorems at the end of the file
settle the specification's claims about them.
-/

namespace Tabnab

/-! ### String helpers

JavaScript string primitives used by the guard layer: `toLowerCase`,
`includes`, `startsWith`.  Strings are modelled through their `List Char`
data; lowercasing is ASCII (`Char.toLower`), which agrees with
`String.prototype.toLowerCase` on the ASCII keyword lists the code uses. -/

/-- `needle` occurs as a contiguous substring of `hay`
(JavaScript `hay.includes(needle)`). -/
def subIn (n : List Char) : List Char → Bool
  | [] => n.isEmpty
  | c :: t => n.isPrefixOf (c :: t) || subIn n t

/-- `String.prototype.toLowerCase`, restricted to ASCII. -/
def lowerStr (s : String) : String := ⟨s.data.map Char.toLower⟩

/-- `hay.includes(needle)` on strings. -/
def includesStr (hay needle : String) : Bool := subIn needle.data hay.data

theorem subIn_cons_of_subIn {n t : List Char} (c : Char) (h : subIn n t = true) :
    subIn n (c :: t) = true := by
  simp [subIn, h]

theorem isPrefixOf_append_self (n b : List Char) : n.isPrefixOf (n ++ b) = true := by
  induction n with
  | nil => simp [List.isPrefixOf]
  | cons c t ih => simp [List.isPrefixOf, ih]

theorem subIn_append_self (n b : List Char) : subIn n (n ++ b) = true := by
  cases n with
  | nil => cases b <;> simp [subIn, List.isEmpty]
  | cons c t =>
    have h := isPrefixOf_append_self (c :: t) b
    simp only [List.cons_append] at h ⊢
    simp [subIn, h]

theorem subIn_append_left {n b : List Char} (a : List Char) (h : subIn n b = true) :
    subIn n (a ++ b) = true := by
  induction a with
  | nil => simpa using h
  | cons c t ih =>
    simp only [List.cons_append]
    exact subIn_cons_of_subIn c ih

/-- An occurrence of `kw` spliced anywhere into a string makes `subIn` true. -/
theorem subIn_of_splice (a kw b : List Char) : subIn kw (a ++ kw ++ b) = true := by
  have h := subIn_append_self kw b
  simpa [List.append_assoc] using subIn_append_left a h

/-! ### Policy data model (`src/policy/types.ts`) -/

/-- `ConfirmationMode` from `src/policy/types.ts`. -/
inductive ConfirmationMode where
  | auto
  | confirmOnNavigation
  | confirmOnSensitive
  | alwaysConfirm
deriving DecidableEq, Repr

/-- `SelectorLogMode` from `src/policy/types.ts`. -/
inductive SelectorLogMode where
  | plaintext
  | truncate
  | hash
deriving DecidableEq, Repr

/-- `PolicyConfig` from `src/policy/types.ts`.  `allowedPathPrefixes` is the
`Record<string, string[]>` map, modelled as an association list. -/
structure PolicyConfig where
  allowedDomains : List String
  allowedPathPrefixes : List (String × List String)
  confirmationMode : ConfirmationMode
  auditLogPath : String
  maxSteps : Nat
  selectorLogMode : SelectorLogMode
deriving Repr

/-- `PolicyContext` from `src/policy/types.ts`.  The optional boolean flags
are `Option Bool` so that JavaScript `undefined` is representable. -/
structure PolicyContext where
  toolName : String
  url : Option String
  selector : Option String
  actionType : String
  elementText : Option String
  key : Option String
  isNavigation : Option Bool
  isReadOnly : Option Bool
deriving Repr

/-- `PolicyDecision` from `src/policy/types.ts`. -/
structure PolicyDecision where
  allowed : Bool
  requiresConfirmation : Bool
  reasonCodes : List String
  sensitive : Bool
deriving DecidableEq, Repr

/-- JavaScript truthiness of an optional boolean (`Boolean(x)` /
`!x` negation): `undefined` counts as false. -/
def optTruthy : Option Bool → Bool
  | none => false
  | some b => b

/-- JavaScript truthiness of an optional string: `undefined` and the empty
string are falsy. -/
def optStrTruthy : Option String → Bool
  | none => false
  | some s => !(s == "")

/-! ### Sensitivity classification (`src/policy/sensitive.ts`) -/

/-- `DEFAULT_RULES.selectorKeywords` from `src/policy/sensitive.ts`. -/
def selectorKeywords : List String :=
  ["submit", "confirm", "delete", "remove", "unsubscribe", "checkout",
   "purchase", "pay", "order", "transfer"]

/-- `DEFAULT_RULES.urlKeywords` from `src/policy/sensitive.ts`. -/
def urlKeywords : List String :=
  ["checkout", "billing", "payment", "confirm", "delete", "unsubscribe", "order"]

/-- `DEFAULT_RULES.elementTextKeywords` from `src/policy/sensitive.ts`. -/
def elementTextKeywords : List String :=
  ["submit", "confirm", "delete", "remove", "unsubscribe", "place order",
   "pay", "purchase", "checkout"]

/-- `x?.toLowerCase() ?? \'\'` — lowercase an optional string, empty when absent. -/
def optLower : Option String → String
  | some s => lowerStr s
  | none => ""

/-- Parameter record of `isSensitiveAction` in `src/policy/sensitive.ts`. -/
structure SensitiveParams where
  selector : Option String
  url : Option String
  elementText : Option String
  actionType : String
  key : Option String
deriving Repr

/-- `isSensitiveAction` from `src/policy/sensitive.ts`. -/
def isSensitiveAction (p : SensitiveParams) : Bool :=
  let sel := optLower p.selector
  let url := optLower p.url
  let elementText := optLower p.elementText
  let actionType := lowerStr p.actionType
  let key := p.key.map lowerStr
  if actionType == "submit" then true
  else if actionType == "press_key" && (key == some "enter" || key == some "numpadenter") then true
  else
    selectorKeywords.any (fun kw => includesStr sel kw) ||
    urlKeywords.any (fun kw => includesStr url kw) ||
    elementTextKeywords.any (fun kw => includesStr elementText kw)

/-! ### URL model

The guard layer calls the platform URL constructor (`new URL(...)`) and reads
`hostname`, `pathname`, `origin`, `search` and `hash`.  The model below is the
WHATWG parser restricted to hierarchical `http`/`https` URLs whose scheme and
host are already lower case and whose components are already canonically
encoded (no port, no userinfo); a string outside this fragment parses to
`none`, which models the constructor throwing.  On this fragment the model
agrees with the platform parser. -/

/-- A parsed URL: scheme, lowercase hostname, pathname (leading `/`),
query (content after `?`, before `#`) and fragment (content after `#`). -/
structure URLRec where
  scheme : List Char
  host : List Char
  path : List Char
  searchStr : List Char
  hashStr : List Char
deriving DecidableEq, Repr

def isSchemeChar (c : Char) : Bool := c.isLower

def isHostEnd (c : Char) : Bool := c == '/' || c == '?' || c == '#'

/-- Characters admitted in a model hostname: not a delimiter, not a port or
userinfo separator, not upper case. -/
def validHostChar (c : Char) : Bool :=
  (c != '/') && (c != '?') && (c != '#') && (c != ':') && (c != '@') && (c != ' ')
    && (decide (c.toNat < 65) || decide (90 < c.toNat))

def schemeOf (l : List Char) : List Char := l.takeWhile isSchemeChar

def restOf (l : List Char) : List Char := l.dropWhile isSchemeChar

def hostOf (r2 : List Char) : List Char := r2.takeWhile (fun c => !isHostEnd c)

def afterHostOf (r2 : List Char) : List Char := r2.dropWhile (fun c => !isHostEnd c)

def beforeHashOf (r2 : List Char) : List Char :=
  (afterHostOf r2).takeWhile (fun c => c != '#')

def hashRestOf (r2 : List Char) : List Char :=
  (afterHostOf r2).dropWhile (fun c => c != '#')

def rawPathOf (r2 : List Char) : List Char :=
  (beforeHashOf r2).takeWhile (fun c => c != '?')

def qRestOf (r2 : List Char) : List Char :=
  (beforeHashOf r2).dropWhile (fun c => c != '?')

/-- Pathname serialization: empty path reads as `/`. -/
def pathOf (r2 : List Char) : List Char :=
  if rawPathOf r2 = [] then ['/'] else rawPathOf r2

/-- The model URL parser (see the section comment for its scope). -/
def parseURLChars (l : List Char) : Option URLRec :=
  if (schemeOf l = "http".data ∨ schemeOf l = "https".data) ∧
      (restOf l).take 3 = [':', '/', '/'] ∧
      hostOf ((restOf l).drop 3) ≠ [] ∧
      (hostOf ((restOf l).drop 3)).all validHostChar = true then
    some { scheme := schemeOf l, host := hostOf ((restOf l).drop 3),
           path := pathOf ((restOf l).drop 3),
           searchStr := (qRestOf ((restOf l).drop 3)).tail,
           hashStr := (hashRestOf ((restOf l).drop 3)).tail }
  else none

/-- `new URL(s)` on a string, returning `none` where the constructor throws
(or where the string is outside the model fragment). -/
def parseURL (s : String) : Option URLRec := parseURLChars s.data

/-- `parsed.origin + parsed.pathname`. -/
def originPath (p : URLRec) : List Char :=
  p.scheme ++ ':' :: '/' :: '/' :: (p.host ++ p.path)

/-- Well-formedness facts every successful parse guarantees. -/
structure URLWF (p : URLRec) : Prop where
  scheme_eq : p.scheme = "http".data ∨ p.scheme = "https".data
  host_ne : p.host ≠ []
  host_ok : p.host.all validHostChar = true
  path_shape : ∃ t, p.path = '/' :: t
  path_clean : ∀ c ∈ p.path, c ≠ '?' ∧ c ≠ '#'

theorem validHostChar_spec {c : Char} (h : validHostChar c = true) :
    c ≠ '/' ∧ c ≠ '?' ∧ c ≠ '#' ∧ c ≠ ':' ∧ c ≠ '@' ∧ c ≠ ' ' ∧
      (c.toNat < 65 ∨ 90 < c.toNat) := by
  simp only [validHostChar, Bool.and_eq_true, Bool.or_eq_true, bne_iff_ne,
    decide_eq_true_eq] at h
  tauto

theorem validHostChar_not_hostEnd {c : Char} (h : validHostChar c = true) :
    (!isHostEnd c) = true := by
  obtain ⟨h1, h2, h3, -⟩ := validHostChar_spec h
  simp [isHostEnd, h1, h2, h3]

theorem toLower_eq_self_of_valid {c : Char} (h : validHostChar c = true) :
    Char.toLower c = c := by
  obtain ⟨-, -, -, -, -, -, hr⟩ := validHostChar_spec h
  simp only [Char.toLower]
  rw [if_neg]
  omega

theorem map_toLower_of_valid {l : List Char} (h : l.all validHostChar = true) :
    l.map Char.toLower = l := by
  induction l with
  | nil => rfl
  | cons c t ih =>
    rw [List.all_cons, Bool.and_eq_true] at h
    simp [toLower_eq_self_of_valid h.1, ih h.2]

theorem pathOf_shape (r2 : List Char) : ∃ t, pathOf r2 = '/' :: t := by
  unfold pathOf rawPathOf beforeHashOf
  have hhd := List.head?_dropWhile_not (fun c => !isHostEnd c) r2
  rcases hA : afterHostOf r2 with _ | ⟨c0, t0⟩
  · simp [List.takeWhile]
  · have hAc : List.dropWhile (fun c => !isHostEnd c) r2 = c0 :: t0 := hA
    rw [hAc] at hhd
    simp only [List.head?_cons, Bool.not_eq_false] at hhd
    have hc0 : c0 = '/' ∨ c0 = '?' ∨ c0 = '#' := by
      have hx : isHostEnd c0 = true := by
        cases hy : isHostEnd c0
        · rw [hy] at hhd
          simp at hhd
        · rfl
      simp only [isHostEnd, Bool.or_eq_true, beq_iff_eq] at hx
      tauto
    rcases hc0 with rfl | rfl | rfl
    · rw [List.takeWhile_cons_of_pos (by decide), List.takeWhile_cons_of_pos (by decide)]
      simp
    · rw [List.takeWhile_cons_of_pos (by decide), List.takeWhile_cons_of_neg (by decide)]
      simp
    · rw [List.takeWhile_cons_of_neg (by decide)]
      simp [List.takeWhile]

theorem pathOf_clean (r2 : List Char) : ∀ c ∈ pathOf r2, c ≠ '?' ∧ c ≠ '#' := by
  intro c hc
  unfold pathOf at hc
  split at hc
  · simp only [List.mem_singleton] at hc
    subst hc
    exact ⟨by decide, by decide⟩
  · unfold rawPathOf beforeHashOf at hc
    have h1 := List.mem_takeWhile_imp hc
    have hmem : c ∈ (afterHostOf r2).takeWhile (fun c => c != '#') :=
      (List.takeWhile_sublist _).subset hc
    have h2 := List.mem_takeWhile_imp hmem
    exact ⟨by simpa using h1, by simpa using h2⟩

theorem parse_wf {l : List Char} {p : URLRec} (h : parseURLChars l = some p) : URLWF p := by
  unfold parseURLChars at h
  split at h
  · rename_i hc
    obtain ⟨hscheme, -, hne, hall⟩ := hc
    injection h with h
    subst h
    exact ⟨hscheme, hne, hall, pathOf_shape _, pathOf_clean _⟩
  · exact absurd h (by simp)

theorem parse_originPath {l : List Char} {p : URLRec} (h : parseURLChars l = some p) :
    parseURLChars (originPath p) =
      some { scheme := p.scheme, host := p.host, path := p.path,
             searchStr := [], hashStr := [] } := by
  obtain ⟨hs, hne, hall, ⟨t, hpath⟩, hclean⟩ := parse_wf h
  have hsl : ∀ c ∈ p.scheme, isSchemeChar c = true := by
    rcases hs with hs | hs <;> rw [hs] <;> decide
  have hhost : ∀ c ∈ p.host, (!isHostEnd c) = true := by
    intro c hc
    rw [List.all_eq_true] at hall
    exact validHostChar_not_hostEnd (hall c hc)
  have hscheme : schemeOf (originPath p) = p.scheme := by
    unfold schemeOf originPath
    rw [List.takeWhile_append_of_pos hsl, List.takeWhile_cons_of_neg (by decide)]
    simp
  have hrest : restOf (originPath p) = ':' :: '/' :: '/' :: (p.host ++ p.path) := by
    unfold restOf originPath
    rw [List.dropWhile_append_of_pos hsl, List.dropWhile_cons_of_neg (by decide)]
  have hhostOf : hostOf (p.host ++ p.path) = p.host := by
    unfold hostOf
    rw [List.takeWhile_append_of_pos hhost, hpath, List.takeWhile_cons_of_neg (by decide)]
    simp
  have hafter : afterHostOf (p.host ++ p.path) = p.path := by
    unfold afterHostOf
    rw [List.dropWhile_append_of_pos hhost, hpath, List.dropWhile_cons_of_neg (by decide)]
  have hbh : beforeHashOf (p.host ++ p.path) = p.path := by
    unfold beforeHashOf
    rw [hafter]
    refine List.takeWhile_eq_self_iff.mpr fun c hc => ?_
    simpa using (hclean c hc).2
  have hhr : hashRestOf (p.host ++ p.path) = [] := by
    unfold hashRestOf
    rw [hafter]
    refine List.dropWhile_eq_nil_iff.mpr fun c hc => ?_
    simpa using (hclean c hc).2
  have hrp : rawPathOf (p.host ++ p.path) = p.path := by
    unfold rawPathOf
    rw [hbh]
    refine List.takeWhile_eq_self_iff.mpr fun c hc => ?_
    simpa using (hclean c hc).1
  have hqr : qRestOf (p.host ++ p.path) = [] := by
    unfold qRestOf
    rw [hbh]
    refine List.dropWhile_eq_nil_iff.mpr fun c hc => ?_
    simpa using (hclean c hc).1
  have hpOf : pathOf (p.host ++ p.path) = p.path := by
    unfold pathOf
    rw [hrp, if_neg (by rw [hpath]; simp)]
  unfold parseURLChars
  rw [hscheme, hrest]
  simp only [List.take_succ_cons, List.take_zero, List.drop_succ_cons, List.drop_zero]
  rw [hhostOf, hpOf, hqr, hhr]
  rw [if_pos ⟨hs, by simp, hne, hall⟩]
  rfl

/-! ### Audit url redaction (`src/policy/audit.ts`) -/

/-- `redactUrl` from `src/policy/audit.ts`: on a parseable url return
`origin + pathname` (the whole query string and fragment are dropped);
an unparseable url is returned unchanged. -/
def auditRedactUrl (u : String) : String :=
  match parseURL u with
  | none => u
  | some p => ⟨originPath p⟩

/-- Url component of the record serialized by `AuditLogger.logEvent`
(`src/policy/audit.ts`): `event.url ? redactUrl(event.url) : undefined`. -/
def logEventUrl (u : Option String) : Option String :=
  match u with
  | some s => if s = "" then none else some (auditRedactUrl s)
  | none => none

theorem auditRedactUrl_of_parse {u : String} {p : URLRec} (h : parseURL u = some p) :
    auditRedactUrl u = ⟨originPath p⟩ := by
  unfold auditRedactUrl
  rw [h]

theorem auditRedactUrl_idem (u : String) :
    auditRedactUrl (auditRedactUrl u) = auditRedactUrl u := by
  cases h : parseURL u with
  | none =>
    have h1 : auditRedactUrl u = u := by
      unfold auditRedactUrl
      rw [h]
    rw [h1, h1]
  | some p =>
    have h1 : auditRedactUrl u = ⟨originPath p⟩ := auditRedactUrl_of_parse h
    rw [h1]
    have h2 : parseURL ⟨originPath p⟩ =
        some { scheme := p.scheme, host := p.host, path := p.path,
               searchStr := [], hashStr := [] } :=
      parse_originPath h
    rw [auditRedactUrl_of_parse h2]
    rfl

/-! ### Query parameters (`URLSearchParams` model)

Used to state what survives redaction.  Splitting is on `&`, a pair splits at
the first `=`, and values decode `+` and percent escapes. -/

def isHexDig (c : Char) : Bool :=
  c.isDigit || (decide (65 ≤ c.toNat) && decide (c.toNat ≤ 70)) ||
    (decide (97 ≤ c.toNat) && decide (c.toNat ≤ 102))

def hexVal (c : Char) : Nat :=
  if c.isDigit then c.toNat - 48
  else if c.toNat ≤ 70 then c.toNat - 55
  else c.toNat - 87

def pctDecode : List Char → List Char
  | [] => []
  | '%' :: a :: b :: t =>
    if isHexDig a && isHexDig b then Char.ofNat (hexVal a * 16 + hexVal b) :: pctDecode t
    else '%' :: pctDecode (a :: b :: t)
  | '+' :: t => ' ' :: pctDecode t
  | c :: t => c :: pctDecode t

/-- The decoded (key, value) pairs of a query string (content after `?`). -/
def parsePairs (q : List Char) : List (String × String) :=
  ((q.splitOn '&').filter (fun seg => seg ≠ [])).map (fun seg =>
    (⟨pctDecode (seg.takeWhile (fun c => c != '='))⟩,
     ⟨pctDecode ((seg.dropWhile (fun c => c != '=')).tail)⟩))

/-- The query parameters a url string carries (empty for unparseable urls). -/
def paramsOfStr (u : String) : List (String × String) :=
  match parseURL u with
  | none => []
  | some p => parsePairs p.searchStr

theorem paramsOfStr_auditRedactUrl {u : String} {p : URLRec}
    (h : parseURL u = some p) : paramsOfStr (auditRedactUrl u) = [] := by
  rw [auditRedactUrl_of_parse h]
  unfold paramsOfStr
  have h2 : parseURL ⟨originPath p⟩ =
      some { scheme := p.scheme, host := p.host, path := p.path,
             searchStr := [], hashStr := [] } :=
    parse_originPath h
  rw [h2]
  rfl

/-! ### Claim-side url redaction (spec words)

The specification sentence for `logEvent` reads: mask any query or fragment
parameter whose key case-insensitively contains token/code/session/auth/key;
parameters with other keys keep their raw values.  The definitions below
follow those words (not the source) and exist only to be compared against the
source-derived `auditRedactUrl`/`logEventUrl`. -/

/-- A key the claim classifies as sensitive. -/
def specSensitiveParamKey (k : String) : Bool :=
  ["token", "code", "session", "auth", "key"].any
    (fun w => includesStr (lowerStr k) w)

/-- Mask one raw `key=value` segment per the claim's words. -/
def specMaskSeg (seg : List Char) : List Char :=
  let k := seg.takeWhile (fun c => c != '=')
  match seg.dropWhile (fun c => c != '=') with
  | [] => seg
  | _ :: _ => if specSensitiveParamKey ⟨k⟩ then k ++ '=' :: "[REDACTED]".data else seg

def joinAmp : List (List Char) → List Char
  | [] => []
  | [s] => s
  | s :: rest => s ++ '&' :: joinAmp rest

def specMaskQuery (q : List Char) : List Char := joinAmp ((q.splitOn '&').map specMaskSeg)

/-- Url redaction as the claim words it: keep the url, mask exactly the
sensitive-keyed query/fragment parameters, leave every other parameter's raw
value in place. -/
def specRedactUrl (u : String) : String :=
  match parseURL u with
  | none => u
  | some p =>
    let q := specMaskQuery p.searchStr
    let f := specMaskQuery p.hashStr
    ⟨originPath p ++ (if q = [] then [] else '?' :: q) ++ (if f = [] then [] else '#' :: f)⟩

/-! ### Allowlist and policy decision (`src/policy/allowlist.ts`, `src/policy/policy.ts`) -/

/-- `Record` lookup `config.allowedPathPrefixes[host]`. -/
def lookupPrefixes (m : List (String × List String)) (h : String) : Option (List String) :=
  (m.find? (fun kv => kv.1 == h)).map (fun kv => kv.2)

/-- `isUrlAllowed` from `src/policy/allowlist.ts`. -/
def isUrlAllowed (url : URLRec) (config : PolicyConfig) : Bool × List String :=
  let host : String := ⟨url.host.map Char.toLower⟩
  if config.allowedDomains = [] then (false, ["allowlist_missing"])
  else if !(config.allowedDomains.contains host) then (false, ["allowlist_blocked"])
  else
    match lookupPrefixes config.allowedPathPrefixes host with
    | some ps =>
      if ps ≠ [] then
        if ps.any (fun pre => pre.data.isPrefixOf url.path) then (true, [])
        else (false, ["path_prefix_blocked"])
      else (true, [])
    | none => (true, [])

/-- `shouldRequireConfirmation` from `src/policy/policy.ts`. -/
def shouldRequireConfirmation (ctx : PolicyContext) (mode : ConfirmationMode)
    (sensitive : Bool) : Bool :=
  if sensitive then true
  else if mode = ConfirmationMode.alwaysConfirm then !(optTruthy ctx.isReadOnly)
  else if mode = ConfirmationMode.confirmOnNavigation then optTruthy ctx.isNavigation
  else if mode = ConfirmationMode.confirmOnSensitive then false
  else false

/-- The tail of `enforcePolicy` that builds the allowed decision
(`sensitive_action` then `confirmation_required` are pushed in this order). -/
def allowedDecision (ctx : PolicyContext) (config : PolicyConfig)
    (sensitive : Bool) : PolicyDecision :=
  let codes0 := if sensitive then ["sensitive_action"] else []
  let rc := shouldRequireConfirmation ctx config.confirmationMode sensitive
  { allowed := true, requiresConfirmation := rc,
    reasonCodes := if rc then codes0 ++ ["confirmation_required"] else codes0,
    sensitive := sensitive }

/-- The `SensitiveParams` record `enforcePolicy` builds from its context. -/
def sensitiveParamsOf (ctx : PolicyContext) : SensitiveParams :=
  { selector := ctx.selector, url := ctx.url, elementText := ctx.elementText,
    actionType := ctx.actionType, key := ctx.key }

/-- `enforcePolicy` from `src/policy/policy.ts`.  `none` models the branch
where `new URL(context.url)` throws (the constructor is unguarded). -/
def enforcePolicy (ctx : PolicyContext) (config : PolicyConfig) : Option PolicyDecision :=
  let sensitive := isSensitiveAction (sensitiveParamsOf ctx)
  match ctx.url with
  | some u =>
    if u ≠ "" ∧ optTruthy ctx.isReadOnly = false then
      match parseURL u with
      | none => none
      | some parsed =>
        let ad := isUrlAllowed parsed config
        if ad.1 = false then
          some { allowed := false, requiresConfirmation := false,
                 reasonCodes := ad.2, sensitive := sensitive }
        else some (allowedDecision ctx config sensitive)
    else some (allowedDecision ctx config sensitive)
  | none => some (allowedDecision ctx config sensitive)

/-! ### Session manager (`src/session/session.ts`) -/

/-- `SessionManager` state. -/
structure SessionState where
  stepCount : Nat
  maxSteps : Nat
  lastActionAt : Nat
  activeTabId : Option String
deriving DecidableEq, Repr

/-- A freshly constructed `SessionManager(maxSteps)`. -/
def mkSession (maxSteps : Nat) : SessionState :=
  { stepCount := 0, maxSteps := maxSteps, lastActionAt := 0, activeTabId := none }

/-- `SessionManager.getStepsRemaining` (`Math.max(maxSteps - stepCount, 0)`,
which truncated `Nat` subtraction performs directly). -/
def getStepsRemaining (s : SessionState) : Nat := s.maxSteps - s.stepCount

/-- `SessionManager.recordStep` at wall-clock time `now`. -/
def recordStep (now : Nat) (s : SessionState) : Bool × SessionState :=
  if s.stepCount ≥ s.maxSteps then (false, s)
  else (true, { s with stepCount := s.stepCount + 1, lastActionAt := now })

/-- `SessionManager.setActiveTabId`. -/
def setActiveTabId (t : Option String) (s : SessionState) : SessionState :=
  { s with activeTabId := t }

/-- `SessionManager.reset`. -/
def sessionReset (s : SessionState) : SessionState :=
  { s with stepCount := 0, lastActionAt := 0, activeTabId := none }

/-- The state-touching `SessionManager` operations (`getStepsRemaining` and
`getActiveTabId` read without mutating, so they are identities on state). -/
inductive SessionOp where
  | record (now : Nat)
  | reset
  | setActive (t : Option String)
  | getRemaining
  | getActive
deriving Repr

def applySessionOp (s : SessionState) : SessionOp → SessionState
  | SessionOp.record now => (recordStep now s).2
  | SessionOp.reset => sessionReset s
  | SessionOp.setActive t => setActiveTabId t s
  | SessionOp.getRemaining => s
  | SessionOp.getActive => s

/-! ### Single-step confirmation store (`src/policy/confirmations.ts`)

The store used by `src/mcp/tools.ts`: entries keyed by token with an expiry;
the bound `execute` closure is abstracted as an opaque payload label. -/

structure PendingTok where
  token : String
  summary : String
  expiresAt : Nat
deriving DecidableEq, Repr

/-- `ConfirmationStore.consume` from `src/policy/confirmations.ts`. -/
def consumeTok (pending : List PendingTok) (token : String) (now : Nat) :
    Option PendingTok × List PendingTok :=
  match pending.find? (fun e => e.token == token) with
  | none => (none, pending)
  | some e =>
    if e.expiresAt < now then (none, pending.filter (fun x => !(x.token == token)))
    else (some e, pending.filter (fun x => !(x.token == token)))

/-- `ConfirmationStore.clear` from `src/policy/confirmations.ts`. -/
def clearToks (_pending : List PendingTok) : List PendingTok := []

/-! ### MCP tool budget gate (`src/mcp/tools.ts`) -/

/-- The `MCPTools` state the budget/reset claims depend on: the session
counter and the pending confirmation tokens. -/
structure MCPState where
  session : SessionState
  confirmations : List PendingTok
deriving DecidableEq, Repr

/-- Outcome of one mutating tool call. -/
structure ClickOutcome where
  ok : Bool
  reasonCodes : List String
  browserPerformed : Bool
deriving DecidableEq, Repr

/-- The budget gate of `MCPTools.executeClick` (`src/mcp/tools.ts`):
`if (!this.session.recordStep()) return {ok:false, reasonCodes:
["max_steps_exceeded"], ...}` before any browser call; on success the
delegated browser click runs (abstracted as succeeding). -/
def executeClickStep (now : Nat) (st : MCPState) : ClickOutcome × MCPState :=
  let r := recordStep now st.session
  if r.1 = false then
    ({ ok := false, reasonCodes := ["max_steps_exceeded"], browserPerformed := false }, st)
  else
    ({ ok := true, reasonCodes := [], browserPerformed := true },
     { st with session := r.2 })

/-- `MCPTools.resetSession`: `this.session.reset(); this.confirmations.clear()`. -/
def resetSession (st : MCPState) : MCPState :=
  { session := sessionReset st.session, confirmations := clearToks st.confirmations }

/-- `n` consecutive mutating calls. -/
def clicksN (now : Nat) : Nat → MCPState → MCPState
  | 0, st => st
  | n + 1, st => clicksN now n (executeClickStep now st).2

/-- All of `n` consecutive mutating calls succeed. -/
def clicksAllOk (now : Nat) : Nat → MCPState → Bool
  | 0, _ => true
  | n + 1, st =>
    (executeClickStep now st).1.ok && clicksAllOk now n (executeClickStep now st).2

/-! ### Tool-bound confirmation store (approve / consumeApproved variant)

Modelled from the spec: the `approve(id)` / `consumeApproved(id, toolName)`
confirmation store of §4.2 — the variant `MCPTools.consumeConfirmationIfApproved`
calls — is not among the provided sources (only its callers and the
single-step `consume` variant above are).  Per the spec it must enforce:
unknown or expired id ⇒ not found; tool-name mismatch ⇒ not found; successful
consumption deletes the entry (single use). -/

structure CEntry where
  id : String
  summary : String
  toolName : String
  expiresAt : Nat
  approved : Bool
deriving DecidableEq, Repr

structure CStore where
  entries : List CEntry
deriving DecidableEq, Repr

def findEntry (s : CStore) (id : String) : Option CEntry :=
  s.entries.find? (fun e => e.id == id)

/-- Modelled from the spec: `approve(id)` marks a live entry approved. -/
def approveEntry (s : CStore) (id : String) (now : Nat) : Option CEntry × CStore :=
  match findEntry s id with
  | none => (none, s)
  | some e =>
    if e.expiresAt < now then (none, { entries := s.entries.filter (fun x => !(x.id == id)) })
    else
      let e' := { e with approved := true }
      (some e', { entries := s.entries.map (fun x => if x.id == id then e' else x) })

/-- Modelled from the spec: `consumeApproved(id, toolName)` — unknown or
expired id ⇒ not found; tool-name mismatch ⇒ not found; not yet approved ⇒
not found; success deletes the entry. -/
def consumeApproved (s : CStore) (id toolName : String) (now : Nat) :
    Option CEntry × CStore :=
  match findEntry s id with
  | none => (none, s)
  | some e =>
    if e.expiresAt < now then (none, { entries := s.entries.filter (fun x => !(x.id == id)) })
    else if e.toolName ≠ toolName then (none, s)
    else if e.approved then (some e, { entries := s.entries.filter (fun x => !(x.id == id)) })
    else (none, s)

/-- Modelled from the spec: `clear()` wipes all entries. -/
def clearStore (_s : CStore) : CStore := { entries := [] }

/-! ### Tab registry (`src/browser/tabRegistry.ts`)

Pages are abstract handles (`Nat`).  The CDP target-id probe
(`getTargetId`) is a collaborator, modelled as a fixed oracle
`Nat → Option String` (a page's protocol target id is stable for its
lifetime).  The `WeakMap` memo and the reverse `Map` are association lists
whose `set` prepends and removes the shadowed key. -/

structure TabRegistryState where
  assigned : List (Nat × String)
  rev : List (String × Nat)
  counter : Nat
  lastFocusedTabId : Option String
deriving DecidableEq, Repr

def emptyRegistry : TabRegistryState :=
  { assigned := [], rev := [], counter := 0, lastFocusedTabId := none }

/-- `this.map.get(page)`. -/
def lookupAssigned (s : TabRegistryState) (page : Nat) : Option String :=
  (s.assigned.find? (fun kv => kv.1 == page)).map (fun kv => kv.2)

/-- `TabRegistry.getPage`. -/
def getPage (s : TabRegistryState) (id : String) : Option Nat :=
  (s.rev.find? (fun kv => kv.1 == id)).map (fun kv => kv.2)

/-- The locally incrementing fallback id `tab-${++this.counter}`. -/
def freshLocalId (n : Nat) : String := "tab-" ++ toString n

def upsertAssigned (l : List (Nat × String)) (page : Nat) (id : String) :
    List (Nat × String) :=
  (page, id) :: l.filter (fun kv => !(kv.1 == page))

def upsertRev (l : List (String × Nat)) (id : String) (page : Nat) :
    List (String × Nat) :=
  (id, page) :: l.filter (fun kv => !(kv.1 == id))

/-- The assignment tail of `getId`: `targetId ?? tab-N`, then
`map.set(page, id); reverse.set(id, page)`. -/
def assignId (oracle : Nat → Option String) (s : TabRegistryState) (page : Nat) :
    String × TabRegistryState :=
  match oracle page with
  | some tid =>
    (tid, { s with assigned := upsertAssigned s.assigned page tid,
                   rev := upsertRev s.rev tid page })
  | none =>
    let id := freshLocalId (s.counter + 1)
    (id, { s with counter := s.counter + 1,
                  assigned := upsertAssigned s.assigned page id,
                  rev := upsertRev s.rev id page })

/-- `TabRegistry.getId`: memoized (`if (existing) return existing` — the JS
truthiness check means an empty-string memo falls through). -/
def getId (oracle : Nat → Option String) (s : TabRegistryState) (page : Nat) :
    String × TabRegistryState :=
  match lookupAssigned s page with
  | some id => if id ≠ "" then (id, s) else assignId oracle s page
  | none => assignId oracle s page

/-- `TabRegistry.refresh(pages)`: drop reverse entries for absent pages,
then re-run `getId` on every present page. -/
def refreshReg (oracle : Nat → Option String) (pages : List Nat)
    (s : TabRegistryState) : TabRegistryState :=
  let s1 := { s with rev := s.rev.filter (fun kv => pages.contains kv.2) }
  pages.foldl (fun st pg => (getId oracle st pg).2) s1

/-! ## Helper lemmas for the claim theorems -/

theorem sessionOp_preserves_bound (s : SessionState) (op : SessionOp)
    (h : s.stepCount ≤ s.maxSteps) :
    (applySessionOp s op).stepCount ≤ (applySessionOp s op).maxSteps := by
  cases op with
  | record now =>
    simp only [applySessionOp, recordStep]
    split
    · exact h
    · rename_i hlt
      simp only [Nat.not_le] at hlt
      simp
      exact hlt
  | reset => simp [applySessionOp, sessionReset]
  | setActive t => simpa [applySessionOp, setActiveTabId] using h
  | getRemaining => exact h
  | getActive => exact h

theorem session_fold_bound (ops : List SessionOp) :
    ∀ s : SessionState, s.stepCount ≤ s.maxSteps →
      (ops.foldl applySessionOp s).stepCount ≤ (ops.foldl applySessionOp s).maxSteps := by
  induction ops with
  | nil => intro s h; simpa using h
  | cons op rest ih =>
    intro s h
    exact ih _ (sessionOp_preserves_bound s op h)

theorem clicks_ok (now : Nat) : ∀ (n : Nat) (st : MCPState),
    st.session.stepCount + n ≤ st.session.maxSteps →
    clicksAllOk now n st = true ∧
    (clicksN now n st).session.stepCount = st.session.stepCount + n ∧
    (clicksN now n st).session.maxSteps = st.session.maxSteps ∧
    (clicksN now n st).confirmations = st.confirmations := by
  intro n
  induction n with
  | zero => intro st h; simp [clicksAllOk, clicksN]
  | succ n ih =>
    intro st h
    have hrec : recordStep now st.session =
        (true, { st.session with stepCount := st.session.stepCount + 1, lastActionAt := now }) := by
      unfold recordStep
      rw [if_neg (by omega)]
    have hstep : executeClickStep now st =
        ({ ok := true, reasonCodes := [], browserPerformed := true },
         { st with session :=
            { st.session with stepCount := st.session.stepCount + 1, lastActionAt := now } }) := by
      unfold executeClickStep
      rw [hrec]
      simp
    have ih2 := ih { st with session :=
        { st.session with stepCount := st.session.stepCount + 1, lastActionAt := now } }
      (by simp; omega)
    obtain ⟨hok, hcount, hmax, hconf⟩ := ih2
    refine ⟨?_, ?_, ?_, ?_⟩
    · simp only [clicksAllOk, hstep]
      simp
      simp at hok
      exact hok
    · simp only [clicksN, hstep]
      simp at hcount
      omega
    · simp only [clicksN, hstep]
      simpa using hmax
    · simp only [clicksN, hstep]
      simpa using hconf

theorem findEntry_erase (l : List CEntry) (id : String) :
    (l.filter (fun x => !(x.id == id))).find? (fun e => e.id == id) = none := by
  induction l with
  | nil => rfl
  | cons e t ih =>
    by_cases h : e.id = id
    · simp [List.filter_cons, h, ih]
    · simp [List.filter_cons, h, List.find?_cons, ih]

/-! ## Claim theorems -/

/-- C8: the step count never exceeds max steps: `recordStep` at the limit
returns `false` and leaves the state unchanged, every operation preserves the
bound, and every operation sequence from a fresh session stays within it. -/
theorem session_never_exceeds_budget (now : Nat) :
    (∀ s : SessionState, s.stepCount ≥ s.maxSteps → recordStep now s = (false, s)) ∧
    (∀ (s : SessionState) (op : SessionOp), s.stepCount ≤ s.maxSteps →
      (applySessionOp s op).stepCount ≤ (applySessionOp s op).maxSteps) ∧
    (∀ (maxSteps : Nat) (ops : List SessionOp),
      (ops.foldl applySessionOp (mkSession maxSteps)).stepCount ≤
        (ops.foldl applySessionOp (mkSession maxSteps)).maxSteps) := by
  refine ⟨?_, fun s op h => sessionOp_preserves_bound s op h, ?_⟩
  · intro s h
    unfold recordStep
    rw [if_pos h]
  · intro m ops
    exact session_fold_bound ops _ (by simp [mkSession])

theorem session_never_exceeds_budget_witness :
    recordStep 7 { stepCount := 3, maxSteps := 3, lastActionAt := 1, activeTabId := none } =
      (false, { stepCount := 3, maxSteps := 3, lastActionAt := 1, activeTabId := none }) ∧
    (applySessionOp { stepCount := 2, maxSteps := 3, lastActionAt := 0, activeTabId := none }
        (SessionOp.record 7)).stepCount ≤
      (applySessionOp { stepCount := 2, maxSteps := 3, lastActionAt := 0, activeTabId := none }
        (SessionOp.record 7)).maxSteps ∧
    (([SessionOp.record 1, SessionOp.record 2, SessionOp.record 3].foldl applySessionOp
        (mkSession 2)).stepCount ≤
      ([SessionOp.record 1, SessionOp.record 2, SessionOp.record 3].foldl applySessionOp
        (mkSession 2)).maxSteps) := by
  obtain ⟨h1, h2, h3⟩ := session_never_exceeds_budget 7
  exact ⟨h1 _ (by decide), h2 _ (SessionOp.record 7) (by decide),
    h3 2 [SessionOp.record 1, SessionOp.record 2, SessionOp.record 3]⟩

/-- C7: from a fresh session every one of `maxSteps` mutating calls succeeds,
the next one is rejected with reason code `max_steps_exceeded` without the
browser operation being performed (and without state change), and
`resetSession` restores the full step budget and clears all pending
confirmation tokens. -/
theorem budget_exhaustion_and_reset (maxSteps : Nat) (pending : List PendingTok) (now : Nat) :
    clicksAllOk now maxSteps { session := mkSession maxSteps, confirmations := pending } = true ∧
    (executeClickStep now (clicksN now maxSteps
        { session := mkSession maxSteps, confirmations := pending })).1 =
      { ok := false, reasonCodes := ["max_steps_exceeded"], browserPerformed := false } ∧
    (executeClickStep now (clicksN now maxSteps
        { session := mkSession maxSteps, confirmations := pending })).2 =
      clicksN now maxSteps { session := mkSession maxSteps, confirmations := pending } ∧
    (∀ st : MCPState,
      getStepsRemaining (resetSession st).session = st.session.maxSteps ∧
      (resetSession st).confirmations = []) := by
  obtain ⟨h1, h2, h3, -⟩ :=
    clicks_ok now maxSteps { session := mkSession maxSteps, confirmations := pending }
      (by simp [mkSession])
  have hge : (clicksN now maxSteps
      { session := mkSession maxSteps, confirmations := pending }).session.stepCount ≥
      (clicksN now maxSteps
      { session := mkSession maxSteps, confirmations := pending }).session.maxSteps := by
    rw [h2, h3]
    simp [mkSession]
  have hrec : recordStep now (clicksN now maxSteps
      { session := mkSession maxSteps, confirmations := pending }).session =
      (false, (clicksN now maxSteps
        { session := mkSession maxSteps, confirmations := pending }).session) := by
    unfold recordStep
    rw [if_pos hge]
  refine ⟨h1, ?_, ?_, ?_⟩
  · unfold executeClickStep
    rw [hrec]
    simp
  · unfold executeClickStep
    rw [hrec]
    simp
  · intro st
    exact ⟨by simp [resetSession, sessionReset, getStepsRemaining], rfl⟩

/-- C4: a confirmation token is consumed at most once and only by the tool
that requested it: unknown or expired id fails, tool-name mismatch fails, and
a successful consumption deletes the entry so a second consumption — by any
tool, at any time — fails.  (On the spec-modelled `consumeApproved` store;
see its doc comment.) -/
theorem confirmation_token_single_use (s : CStore) (id tool : String) (now : Nat) :
    (findEntry s id = none → consumeApproved s id tool now = (none, s)) ∧
    (∀ e, findEntry s id = some e → e.expiresAt < now →
      (consumeApproved s id tool now).1 = none) ∧
    (∀ e, findEntry s id = some e → e.toolName ≠ tool →
      (consumeApproved s id tool now).1 = none) ∧
    (∀ e s', consumeApproved s id tool now = (some e, s') →
      findEntry s' id = none ∧
      ∀ (tool' : String) (now' : Nat), (consumeApproved s' id tool' now').1 = none) := by
  refine ⟨?_, ?_, ?_, ?_⟩
  · intro h
    unfold consumeApproved
    rw [h]
  · intro e he hex
    unfold consumeApproved
    rw [he]
    dsimp only
    rw [if_pos hex]
  · intro e he htool
    unfold consumeApproved
    rw [he]
    dsimp only
    by_cases hex : e.expiresAt < now
    · rw [if_pos hex]
    · rw [if_neg hex, if_pos htool]
  · intro e s' h
    unfold consumeApproved at h
    cases hf : findEntry s id with
    | none =>
      rw [hf] at h
      simp at h
    | some e0 =>
      rw [hf] at h
      dsimp only at h
      split_ifs at h with hex htool happ
      · simp at h
      · simp at h
      · obtain ⟨he, hs⟩ := Prod.mk.injEq .. ▸ h
        have hs' : s' = { entries := s.entries.filter (fun x => !(x.id == id)) } := hs.symm
        have hfind : findEntry s' id = none := by
          rw [hs']
          exact findEntry_erase s.entries id
        refine ⟨hfind, fun tool' now' => ?_⟩
        unfold consumeApproved
        rw [hfind]
      · simp at h

def demoEntry : CEntry :=
  { id := "c1", summary := "click #delete-account", toolName := "click_element",
    expiresAt := 100, approved := true }

def demoStore : CStore := { entries := [demoEntry] }

theorem confirmation_token_single_use_witness :
    (consumeApproved demoStore "c1" "click_element" 5).1 = some demoEntry ∧
    findEntry (consumeApproved demoStore "c1" "click_element" 5).2 "c1" = none ∧
    (consumeApproved (consumeApproved demoStore "c1" "click_element" 5).2
      "c1" "click_element" 6).1 = none ∧
    (consumeApproved demoStore "c1" "fill_input" 5).1 = none ∧
    (consumeApproved demoStore "c1" "click_element" 500).1 = none := by
  obtain ⟨-, -, -, hsucc⟩ := confirmation_token_single_use demoStore "c1" "click_element" 5
  have hc : consumeApproved demoStore "c1" "click_element" 5 =
      (some demoEntry, { entries := [] }) := by decide
  obtain ⟨hf, hsec⟩ := hsucc demoEntry { entries := [] } hc
  refine ⟨by rw [hc], by rw [hc]; exact hf, by rw [hc]; exact hsec "click_element" 6, ?_, ?_⟩
  · exact (confirmation_token_single_use demoStore "c1" "fill_input" 5).2.2.1 demoEntry
      (by decide) (by decide)
  · exact (confirmation_token_single_use demoStore "c1" "click_element" 500).2.1 demoEntry
      (by decide) (by decide)

theorem isSensitiveAction_of_selector (p : SensitiveParams) {kw : String}
    (hkw : kw ∈ selectorKeywords) (hin : includesStr (optLower p.selector) kw = true) :
    isSensitiveAction p = true := by
  unfold isSensitiveAction
  dsimp only
  split_ifs with h1 h2
  · rfl
  · rfl
  · have hany : selectorKeywords.any (fun k => includesStr (optLower p.selector) k) = true :=
      List.any_eq_true.mpr ⟨kw, hkw, hin⟩
    simp [hany]

theorem isSensitiveAction_of_url (p : SensitiveParams) {kw : String}
    (hkw : kw ∈ urlKeywords) (hin : includesStr (optLower p.url) kw = true) :
    isSensitiveAction p = true := by
  unfold isSensitiveAction
  dsimp only
  split_ifs with h1 h2
  · rfl
  · rfl
  · have hany : urlKeywords.any (fun k => includesStr (optLower p.url) k) = true :=
      List.any_eq_true.mpr ⟨kw, hkw, hin⟩
    simp [hany]

theorem isSensitiveAction_of_elementText (p : SensitiveParams) {kw : String}
    (hkw : kw ∈ elementTextKeywords) (hin : includesStr (optLower p.elementText) kw = true) :
    isSensitiveAction p = true := by
  unfold isSensitiveAction
  dsimp only
  split_ifs with h1 h2
  · rfl
  · rfl
  · have hany : elementTextKeywords.any (fun k => includesStr (optLower p.elementText) k) = true :=
      List.any_eq_true.mpr ⟨kw, hkw, hin⟩
    simp [hany]

theorem selectorKeywords_lower : ∀ kw ∈ selectorKeywords, lowerStr kw = kw := by decide

theorem urlKeywords_lower : ∀ kw ∈ urlKeywords, lowerStr kw = kw := by decide

theorem elementTextKeywords_lower : ∀ kw ∈ elementTextKeywords, lowerStr kw = kw := by decide

theorem includes_splice (a b : List Char) (kw : String) (hl : lowerStr kw = kw) :
    includesStr (lowerStr ⟨a ++ kw.data ++ b⟩) kw = true := by
  unfold includesStr lowerStr
  simp only [List.map_append]
  have hk : kw.data.map Char.toLower = kw.data := congrArg String.data hl
  rw [hk]
  exact subIn_of_splice _ _ _

/-- C3: `isSensitiveAction` is true exactly on the spec's disjunction
(action type `submit`; `press_key` with Enter/NumpadEnter case-insensitively;
a selector / url / element-text keyword occurring case-insensitively), and
splicing a keyword of the matching list into the selector, url, or element
text never flips a sensitive classification to false. -/
theorem sensitive_classification (p : SensitiveParams) :
    (isSensitiveAction p = true ↔
      lowerStr p.actionType = "submit" ∨
      (lowerStr p.actionType = "press_key" ∧
        (p.key.map lowerStr = some "enter" ∨ p.key.map lowerStr = some "numpadenter")) ∨
      (∃ kw ∈ selectorKeywords, includesStr (optLower p.selector) kw = true) ∨
      (∃ kw ∈ urlKeywords, includesStr (optLower p.url) kw = true) ∨
      (∃ kw ∈ elementTextKeywords, includesStr (optLower p.elementText) kw = true)) ∧
    (∀ (a b : List Char) (kw : String), kw ∈ selectorKeywords →
      isSensitiveAction p = true →
      isSensitiveAction { p with selector := some ⟨a ++ kw.data ++ b⟩ } = true) ∧
    (∀ (a b : List Char) (kw : String), kw ∈ urlKeywords →
      isSensitiveAction p = true →
      isSensitiveAction { p with url := some ⟨a ++ kw.data ++ b⟩ } = true) ∧
    (∀ (a b : List Char) (kw : String), kw ∈ elementTextKeywords →
      isSensitiveAction p = true →
      isSensitiveAction { p with elementText := some ⟨a ++ kw.data ++ b⟩ } = true) := by
  refine ⟨?_, ?_, ?_, ?_⟩
  · unfold isSensitiveAction
    dsimp only
    split_ifs with h1 h2
    · simp only [beq_iff_eq] at h1
      simp [h1]
    · simp only [beq_iff_eq, Bool.and_eq_true, Bool.or_eq_true] at h2
      simp only [true_iff, eq_self_iff_true]
      tauto
    · simp only [beq_iff_eq] at h1
      simp only [beq_iff_eq, Bool.and_eq_true, Bool.or_eq_true, not_and, not_or] at h2
      simp only [Bool.or_eq_true, List.any_eq_true]
      constructor
      · rintro ((⟨kw, hkw, hin⟩ | ⟨kw, hkw, hin⟩) | ⟨kw, hkw, hin⟩)
        · exact Or.inr (Or.inr (Or.inl ⟨kw, hkw, hin⟩))
        · exact Or.inr (Or.inr (Or.inr (Or.inl ⟨kw, hkw, hin⟩)))
        · exact Or.inr (Or.inr (Or.inr (Or.inr ⟨kw, hkw, hin⟩)))
      · rintro (h | ⟨hp, hk⟩ | ⟨kw, hkw, hin⟩ | ⟨kw, hkw, hin⟩ | ⟨kw, hkw, hin⟩)
        · exact absurd h h1
        · rcases hk with hk | hk
          · exact absurd hk (h2 hp).1
          · exact absurd hk (h2 hp).2
        · exact Or.inl (Or.inl ⟨kw, hkw, hin⟩)
        · exact Or.inl (Or.inr ⟨kw, hkw, hin⟩)
        · exact Or.inr ⟨kw, hkw, hin⟩
  · intro a b kw hkw _hs
    exact isSensitiveAction_of_selector { p with selector := some ⟨a ++ kw.data ++ b⟩ }
      hkw (includes_splice a b kw (selectorKeywords_lower kw hkw))
  · intro a b kw hkw _hs
    exact isSensitiveAction_of_url { p with url := some ⟨a ++ kw.data ++ b⟩ }
      hkw (includes_splice a b kw (urlKeywords_lower kw hkw))
  · intro a b kw hkw _hs
    exact isSensitiveAction_of_elementText
      { p with elementText := some ⟨a ++ kw.data ++ b⟩ }
      hkw (includes_splice a b kw (elementTextKeywords_lower kw hkw))

theorem sensitive_classification_witness :
    isSensitiveAction
      { selector := some "#delete-account", url := none, elementText := none,
        actionType := "click", key := none } = true ∧
    isSensitiveAction
      { selector := some ⟨"#x-".data ++ "submit".data ++ "z".data⟩, url := none,
        elementText := none, actionType := "click", key := none } = true := by
  obtain ⟨-, hsel, -, -⟩ := sensitive_classification
    ({ selector := some "#pay", url := none, elementText := none,
       actionType := "click", key := none } : SensitiveParams)
  constructor
  · exact (sensitive_classification
      ({ selector := some "#delete-account", url := none, elementText := none,
         actionType := "click", key := none } : SensitiveParams)).1.mpr
      (Or.inr (Or.inr (Or.inl ⟨"delete", by decide, by decide⟩)))
  · exact hsel "#x-".data "z".data "submit" (by decide) (by decide)

theorem enforcePolicy_allowed_shape {ctx : PolicyContext} {cfg : PolicyConfig}
    {d : PolicyDecision} (h : enforcePolicy ctx cfg = some d) (ha : d.allowed = true) :
    d = allowedDecision ctx cfg (isSensitiveAction (sensitiveParamsOf ctx)) := by
  unfold enforcePolicy at h
  cases hu : ctx.url with
  | none =>
    rw [hu] at h
    dsimp only at h
    injection h with h
    exact h.symm
  | some u =>
    rw [hu] at h
    dsimp only at h
    split_ifs at h with hc
    · cases hp : parseURL u with
      | none =>
        rw [hp] at h
        simp at h
      | some parsed =>
        rw [hp] at h
        dsimp only at h
        split_ifs at h with hdeny
        · injection h with h
          rw [← h] at ha
          simp at ha
        · injection h with h
          exact h.symm
    · injection h with h
      exact h.symm

theorem shouldRequireConfirmation_iff (ctx : PolicyContext) (mode : ConfirmationMode)
    (sens : Bool) :
    shouldRequireConfirmation ctx mode sens = true ↔
      sens = true ∨
      (mode = ConfirmationMode.alwaysConfirm ∧ optTruthy ctx.isReadOnly = false) ∨
      (mode = ConfirmationMode.confirmOnNavigation ∧ optTruthy ctx.isNavigation = true) := by
  cases mode <;> cases sens <;>
    simp [shouldRequireConfirmation, Bool.not_eq_true']

/-- C2: for every allowed decision, `requiresConfirmation` holds exactly when
the context is sensitive, or the mode is always-confirm and the context is
not read-only, or the mode is confirm-on-navigation and `isNavigation` is
set; `sensitive_action` is appended for sensitive contexts and
`confirmation_required` whenever confirmation is required; modes
confirm-on-sensitive and auto add nothing beyond sensitivity. -/
theorem allowed_confirmation_requirement (ctx : PolicyContext) (cfg : PolicyConfig)
    (d : PolicyDecision) (h : enforcePolicy ctx cfg = some d) (ha : d.allowed = true) :
    d.sensitive = isSensitiveAction (sensitiveParamsOf ctx) ∧
    (d.requiresConfirmation = true ↔
      (d.sensitive = true ∨
       (cfg.confirmationMode = ConfirmationMode.alwaysConfirm ∧
         optTruthy ctx.isReadOnly = false) ∨
       (cfg.confirmationMode = ConfirmationMode.confirmOnNavigation ∧
         optTruthy ctx.isNavigation = true))) ∧
    (d.sensitive = true → "sensitive_action" ∈ d.reasonCodes) ∧
    (d.requiresConfirmation = true → "confirmation_required" ∈ d.reasonCodes) ∧
    ((cfg.confirmationMode = ConfirmationMode.confirmOnSensitive ∨
      cfg.confirmationMode = ConfirmationMode.auto) →
      (d.requiresConfirmation = true ↔ d.sensitive = true)) := by
  have hd := enforcePolicy_allowed_shape h ha
  subst hd
  unfold allowedDecision
  dsimp only
  refine ⟨rfl, ?_, ?_, ?_, ?_⟩
  · exact shouldRequireConfirmation_iff ctx cfg.confirmationMode _
  · intro hs
    rw [hs]
    split_ifs <;> simp_all
  · intro hrc
    rw [hrc]
    simp
  · intro hmode
    rw [shouldRequireConfirmation_iff ctx cfg.confirmationMode _]
    rcases hmode with hmode | hmode <;> rw [hmode] <;> simp

def demoCtx : PolicyContext :=
  { toolName := "click_element",
    url := some "https://example.com/billing/invoices", selector := some "#next",
    actionType := "click", elementText := none, key := none,
    isNavigation := none, isReadOnly := none }

def demoCfg : PolicyConfig :=
  { allowedDomains := ["example.com"],
    allowedPathPrefixes := [("example.com", ["/billing", "/settings"])],
    confirmationMode := ConfirmationMode.confirmOnSensitive,
    auditLogPath := "", maxSteps := 30,
    selectorLogMode := SelectorLogMode.truncate }

theorem allowed_confirmation_requirement_witness :
    ∃ d : PolicyDecision,
      enforcePolicy demoCtx demoCfg = some d ∧
      d.allowed = true ∧
      (d.requiresConfirmation = true ↔ d.sensitive = true) := by
  refine ⟨{ allowed := true, requiresConfirmation := true,
            reasonCodes := ["sensitive_action", "confirmation_required"],
            sensitive := true }, by decide, rfl, ?_⟩
  exact (allowed_confirmation_requirement demoCtx demoCfg
    { allowed := true, requiresConfirmation := true,
      reasonCodes := ["sensitive_action", "confirmation_required"],
      sensitive := true } (by decide) rfl).2.2.2.2 (Or.inl rfl)

theorem enforcePolicy_parsed (cfg : PolicyConfig) {ctx : PolicyContext} {u : String}
    {pr : URLRec} (hu : ctx.url = some u) (hne : u ≠ "")
    (hro : optTruthy ctx.isReadOnly = false) (hp : parseURL u = some pr) :
    enforcePolicy ctx cfg =
      if (isUrlAllowed pr cfg).1 = false then
        some { allowed := false, requiresConfirmation := false,
               reasonCodes := (isUrlAllowed pr cfg).2,
               sensitive := isSensitiveAction (sensitiveParamsOf ctx) }
      else some (allowedDecision ctx cfg (isSensitiveAction (sensitiveParamsOf ctx))) := by
  unfold enforcePolicy
  rw [hu]
  dsimp only
  rw [if_pos ⟨hne, hro⟩, hp]

theorem isUrlAllowed_cases (pr : URLRec) (cfg : PolicyConfig) :
    isUrlAllowed pr cfg = (false, ["allowlist_missing"]) ∨
    isUrlAllowed pr cfg = (false, ["allowlist_blocked"]) ∨
    isUrlAllowed pr cfg = (false, ["path_prefix_blocked"]) ∨
    isUrlAllowed pr cfg = (true, []) := by
  unfold isUrlAllowed
  dsimp only
  split_ifs with h1 h2
  · exact Or.inl rfl
  · exact Or.inr (Or.inl rfl)
  · rcases hlk : lookupPrefixes cfg.allowedPathPrefixes ⟨pr.host.map Char.toLower⟩ with - | ps
    · exact Or.inr (Or.inr (Or.inr rfl))
    · dsimp only
      split_ifs with h3 h4
      · exact Or.inr (Or.inr (Or.inr rfl))
      · exact Or.inr (Or.inr (Or.inl rfl))
      · exact Or.inr (Or.inr (Or.inr rfl))

theorem isUrlAllowed_deny_codes (pr : URLRec) (cfg : PolicyConfig)
    (h : (isUrlAllowed pr cfg).1 = false) : (isUrlAllowed pr cfg).2 ≠ [] := by
  rcases isUrlAllowed_cases pr cfg with hc | hc | hc | hc <;> rw [hc] <;> simp
  rw [hc] at h
  simp at h

/-- C1: with a (truthy) url and a non-read-only action, the decision follows
the allowlist chain — empty allowed-domains set ⇒ `allowlist_missing`;
unlisted host ⇒ `allowlist_blocked`; configured prefixes none of which match
⇒ `path_prefix_blocked`; otherwise allowed — and every denial is immediate
(`requiresConfirmation = false`, no confirmation codes), carries the
independently computed sensitive flag, and carries at least one reason
code. -/
theorem allowlist_denial_decision (ctx : PolicyContext) (cfg : PolicyConfig)
    (u : String) (pr : URLRec) (hu : ctx.url = some u) (hne : u ≠ "")
    (hro : optTruthy ctx.isReadOnly = false) (hp : parseURL u = some pr) :
    (cfg.allowedDomains = [] →
      enforcePolicy ctx cfg =
        some { allowed := false, requiresConfirmation := false,
               reasonCodes := ["allowlist_missing"],
               sensitive := isSensitiveAction (sensitiveParamsOf ctx) }) ∧
    (cfg.allowedDomains ≠ [] → (⟨pr.host⟩ : String) ∉ cfg.allowedDomains →
      enforcePolicy ctx cfg =
        some { allowed := false, requiresConfirmation := false,
               reasonCodes := ["allowlist_blocked"],
               sensitive := isSensitiveAction (sensitiveParamsOf ctx) }) ∧
    (∀ ps, cfg.allowedDomains ≠ [] → (⟨pr.host⟩ : String) ∈ cfg.allowedDomains →
      lookupPrefixes cfg.allowedPathPrefixes ⟨pr.host⟩ = some ps → ps ≠ [] →
      (∀ pre ∈ ps, pre.data.isPrefixOf pr.path = false) →
      enforcePolicy ctx cfg =
        some { allowed := false, requiresConfirmation := false,
               reasonCodes := ["path_prefix_blocked"],
               sensitive := isSensitiveAction (sensitiveParamsOf ctx) }) ∧
    (cfg.allowedDomains ≠ [] → (⟨pr.host⟩ : String) ∈ cfg.allowedDomains →
      (∀ ps, lookupPrefixes cfg.allowedPathPrefixes ⟨pr.host⟩ = some ps → ps ≠ [] →
        ∃ pre ∈ ps, pre.data.isPrefixOf pr.path = true) →
      ∃ d, enforcePolicy ctx cfg = some d ∧ d.allowed = true ∧
        d.sensitive = isSensitiveAction (sensitiveParamsOf ctx)) ∧
    (∀ d, enforcePolicy ctx cfg = some d → d.allowed = false →
      d.requiresConfirmation = false ∧ d.reasonCodes ≠ [] ∧
      d.sensitive = isSensitiveAction (sensitiveParamsOf ctx)) := by
  have hwf := parse_wf (show parseURLChars u.data = some pr from hp)
  have hmap : (⟨pr.host.map Char.toLower⟩ : String) = ⟨pr.host⟩ :=
    congrArg String.mk (map_toLower_of_valid hwf.host_ok)
  have hE := enforcePolicy_parsed cfg hu hne hro hp
  refine ⟨?_, ?_, ?_, ?_, ?_⟩
  · intro h0
    have hall : isUrlAllowed pr cfg = (false, ["allowlist_missing"]) := by
      unfold isUrlAllowed
      dsimp only
      rw [if_pos h0]
    rw [hE, hall]
    simp
  · intro h1 h2
    have hcont : cfg.allowedDomains.contains (⟨pr.host.map Char.toLower⟩ : String) = false := by
      rw [hmap]
      simpa using h2
    have hall : isUrlAllowed pr cfg = (false, ["allowlist_blocked"]) := by
      unfold isUrlAllowed
      dsimp only
      rw [if_neg h1, hcont]
      simp
    rw [hE, hall]
    simp
  · intro ps h1 h2 hlk hps hnone
    have hcont : cfg.allowedDomains.contains (⟨pr.host.map Char.toLower⟩ : String) = true := by
      rw [hmap]
      simpa using h2
    have hany : ps.any (fun pre => pre.data.isPrefixOf pr.path) = false :=
      List.any_eq_false.mpr (by
        intro x hx
        simp [hnone x hx])
    have hall : isUrlAllowed pr cfg = (false, ["path_prefix_blocked"]) := by
      unfold isUrlAllowed
      dsimp only
      rw [if_neg h1, hcont]
      simp only [Bool.not_true, if_false]
      rw [hmap, hlk]
      dsimp only
      rw [if_pos hps, hany]
      simp
    rw [hE, hall]
    simp
  · intro h1 h2 hok
    have hcont : cfg.allowedDomains.contains (⟨pr.host.map Char.toLower⟩ : String) = true := by
      rw [hmap]
      simpa using h2
    have hall : isUrlAllowed pr cfg = (true, []) := by
      unfold isUrlAllowed
      dsimp only
      have hnot : ¬((!cfg.allowedDomains.contains
          (⟨pr.host.map Char.toLower⟩ : String)) = true) := by
        rw [hcont]
        simp
      rw [if_neg h1, if_neg hnot, hmap]
      rcases hlk : lookupPrefixes cfg.allowedPathPrefixes ⟨pr.host⟩ with - | ps
      · rfl
      · dsimp only
        by_cases hps : ps = []
        · simp [hps]
        · have hany : ps.any (fun pre => pre.data.isPrefixOf pr.path) = true := by
            obtain ⟨pre, hpre, hmatch⟩ := hok ps hlk hps
            exact List.any_eq_true.mpr ⟨pre, hpre, hmatch⟩
          rw [if_pos hps, hany]
          simp
    rw [hE, hall]
    exact ⟨allowedDecision ctx cfg (isSensitiveAction (sensitiveParamsOf ctx)), by simp, rfl, rfl⟩
  · intro d hd ha
    rw [hE] at hd
    split_ifs at hd with hdeny
    · injection hd with hd
      refine ⟨by rw [← hd], ?_, by rw [← hd]⟩
      rw [← hd]
      exact isUrlAllowed_deny_codes pr cfg hdeny
    · injection hd with hd
      rw [← hd] at ha
      simp [allowedDecision] at ha

theorem allowlist_denial_decision_witness :
    enforcePolicy
      { demoCtx with url := some "https://evil.example.net/billing" } demoCfg =
      some { allowed := false, requiresConfirmation := false,
             reasonCodes := ["allowlist_blocked"],
             sensitive := isSensitiveAction (sensitiveParamsOf
               { demoCtx with url := some "https://evil.example.net/billing" }) } ∧
    enforcePolicy demoCtx { demoCfg with allowedDomains := [] } =
      some { allowed := false, requiresConfirmation := false,
             reasonCodes := ["allowlist_missing"],
             sensitive := isSensitiveAction (sensitiveParamsOf demoCtx) } := by
  constructor
  · exact (allowlist_denial_decision
      { demoCtx with url := some "https://evil.example.net/billing" } demoCfg
      "https://evil.example.net/billing"
      { scheme := "https".data, host := "evil.example.net".data,
        path := "/billing".data, searchStr := [], hashStr := [] }
      rfl (by decide) rfl (by decide)).2.1 (by decide) (by decide)
  · exact (allowlist_denial_decision demoCtx { demoCfg with allowedDomains := [] }
      "https://example.com/billing/invoices"
      { scheme := "https".data, host := "example.com".data,
        path := "/billing/invoices".data, searchStr := [], hashStr := [] }
      rfl (by decide) rfl (by decide)).1 rfl

/-- C10: `enforcePolicy` is not total: it throws (returns `none` in the
model) exactly when the context carries a truthy url, is not read-only, and
the url does not parse; with the url absent (or empty, which JavaScript
treats as falsy), the action read-only, or the url parseable, it returns a
decision. -/
theorem enforcePolicy_partiality (ctx : PolicyContext) (cfg : PolicyConfig) :
    enforcePolicy ctx cfg = none ↔
      ∃ u, ctx.url = some u ∧ u ≠ "" ∧ optTruthy ctx.isReadOnly = false ∧
        parseURL u = none := by
  unfold enforcePolicy
  cases hu : ctx.url with
  | none =>
    dsimp only
    simp
  | some u =>
    dsimp only
    by_cases hc : u ≠ "" ∧ optTruthy ctx.isReadOnly = false
    · rw [if_pos hc]
      cases hp : parseURL u with
      | none =>
        simp only [true_iff]
        exact ⟨u, rfl, hc.1, hc.2, hp⟩
      | some pr =>
        dsimp only
        constructor
        · intro h
          split_ifs at h
        · rintro ⟨u', hu', -, -, hp'⟩
          injection hu' with hu'
          rw [← hu'] at hp'
          rw [hp'] at hp
          cases hp
    · rw [if_neg hc]
      constructor
      · intro h
        simp at h
      · rintro ⟨u', hu', hne', hro', -⟩
        injection hu' with hu'
        subst hu'
        exact absurd ⟨hne', hro'⟩ hc

/-- C5 (amended): for every audit event with a (truthy) url, `logEvent`
writes the url reduced to origin + pathname — the whole query string and
fragment are removed, so no parameter, sensitive or not, keeps its value in
the written record; an unparseable url is written unchanged. -/
theorem logEvent_url_strip (u : String) (hne : u ≠ "") :
    (∀ pr, parseURL u = some pr →
      logEventUrl (some u) = some ⟨originPath pr⟩ ∧
      paramsOfStr (auditRedactUrl u) = []) ∧
    (parseURL u = none → logEventUrl (some u) = some u) := by
  constructor
  · intro pr hp
    refine ⟨?_, paramsOfStr_auditRedactUrl hp⟩
    unfold logEventUrl
    dsimp only
    rw [if_neg hne, auditRedactUrl_of_parse hp]
  · intro hp
    unfold logEventUrl
    dsimp only
    rw [if_neg hne]
    unfold auditRedactUrl
    rw [hp]

theorem logEvent_url_strip_witness :
    logEventUrl (some "https://example.com/a?token=x") = some "https://example.com/a" ∧
    paramsOfStr (auditRedactUrl "https://example.com/a?token=x") = [] := by
  obtain ⟨h1, -⟩ := logEvent_url_strip "https://example.com/a?token=x" (by decide)
  obtain ⟨ha, hb⟩ := h1
    { scheme := "https".data, host := "example.com".data, path := "/a".data,
      searchStr := "token=x".data, hashStr := [] } (by decide)
  refine ⟨?_, hb⟩
  rw [ha]
  rfl

/-- C5 counterexample: `logEvent` does not keep non-sensitive parameters.
On `https://example.com/page?foo=bar&token=s` the written url is
`https://example.com/page`, not the claim's selective masking
(`specRedactUrl`, written from the claim's words): the non-sensitive
parameter `foo=bar` is dropped from the record rather than kept. -/
theorem logEvent_url_mask_counterexample :
    logEventUrl (some "https://example.com/page?foo=bar&token=s") =
      some "https://example.com/page" ∧
    specRedactUrl "https://example.com/page?foo=bar&token=s" =
      "https://example.com/page?foo=bar&token=[REDACTED]" ∧
    logEventUrl (some "https://example.com/page?foo=bar&token=s") ≠
      some (specRedactUrl "https://example.com/page?foo=bar&token=s") ∧
    specSensitiveParamKey "foo" = false ∧
    ("foo", "bar") ∈ paramsOfStr "https://example.com/page?foo=bar&token=s" ∧
    ("foo", "bar") ∉ paramsOfStr "https://example.com/page" := by
  decide

/-- C6: url redaction is idempotent, and the redacted output carries no
query parameters at all — in particular no raw value of any sensitive-keyed
(masked) parameter of the input survives in it. -/
theorem redactUrl_idem_and_mask :
    (∀ u, auditRedactUrl (auditRedactUrl u) = auditRedactUrl u) ∧
    (∀ u pr, parseURL u = some pr → paramsOfStr (auditRedactUrl u) = []) ∧
    (∀ u pr, parseURL u = some pr → ∀ kv ∈ paramsOfStr u,
      specSensitiveParamKey kv.1 = true → kv ∉ paramsOfStr (auditRedactUrl u)) := by
  refine ⟨auditRedactUrl_idem, fun u pr hp => paramsOfStr_auditRedactUrl hp, ?_⟩
  intro u pr hp kv hkv hsens
  rw [paramsOfStr_auditRedactUrl hp]
  simp

theorem redactUrl_idem_and_mask_witness :
    auditRedactUrl (auditRedactUrl "https://example.com/cb?token=secret&state=keep") =
      auditRedactUrl "https://example.com/cb?token=secret&state=keep" ∧
    paramsOfStr (auditRedactUrl "https://example.com/cb?token=secret&state=keep") = [] ∧
    ("token", "secret") ∉
      paramsOfStr (auditRedactUrl "https://example.com/cb?token=secret&state=keep") := by
  obtain ⟨h1, h2, h3⟩ := redactUrl_idem_and_mask
  refine ⟨h1 _, h2 _
    { scheme := "https".data, host := "example.com".data, path := "/cb".data,
      searchStr := "token=secret&state=keep".data, hashStr := [] } (by decide), ?_⟩
  exact h3 "https://example.com/cb?token=secret&state=keep"
    { scheme := "https".data, host := "example.com".data, path := "/cb".data,
      searchStr := "token=secret&state=keep".data, hashStr := [] } (by decide)
    ("token", "secret") (by decide) (by decide)

theorem assignId_lookup {oracle : Nat → Option String} {s : TabRegistryState}
    {page : Nat} {id : String} {s1 : TabRegistryState}
    (h : assignId oracle s page = (id, s1)) :
    lookupAssigned s1 page = some id := by
  unfold assignId at h
  cases ho : oracle page with
  | some tid =>
    rw [ho] at h
    dsimp only at h
    obtain ⟨h1, h2⟩ := Prod.mk.injEq .. ▸ h
    rw [← h2]
    unfold lookupAssigned upsertAssigned
    simp [h1]
  | none =>
    rw [ho] at h
    dsimp only at h
    obtain ⟨h1, h2⟩ := Prod.mk.injEq .. ▸ h
    rw [← h2]
    unfold lookupAssigned upsertAssigned
    simp [h1]

theorem getId_memo_hit {oracle : Nat → Option String} {s : TabRegistryState}
    {page : Nat} {id : String} (h : lookupAssigned s page = some id) (hid : id ≠ "") :
    getId oracle s page = (id, s) := by
  unfold getId
  rw [h]
  dsimp only
  rw [if_pos hid]

theorem getId_state_cases (oracle : Nat → Option String) (s : TabRegistryState) (page : Nat) :
    getId oracle s page = ((getId oracle s page).1, s) ∨
    getId oracle s page = assignId oracle s page := by
  unfold getId
  cases hl : lookupAssigned s page with
  | none => exact Or.inr rfl
  | some id0 =>
    dsimp only
    by_cases h0 : id0 ≠ ""
    · rw [if_pos h0]
      exact Or.inl rfl
    · rw [if_neg h0]
      exact Or.inr rfl

theorem find?_key_filter (l : List (Nat × String)) (q q' : Nat) (h : q' ≠ q) :
    (l.filter (fun kv => !(kv.1 == q))).find? (fun kv => kv.1 == q') =
      l.find? (fun kv => kv.1 == q') := by
  induction l with
  | nil => rfl
  | cons kv t ih =>
    by_cases hk : kv.1 = q
    · have hfalse : (kv.1 == q') = false := by
        rw [hk]
        simp [Ne.symm h]
      simp only [List.filter_cons, hk, beq_self_eq_true, Bool.not_true, Bool.false_eq_true,
        if_false]
      rw [ih, List.find?_cons, hfalse]
    · have hkeep : (!(kv.1 == q)) = true := by simp [hk]
      simp only [List.filter_cons, hkeep, if_true]
      rw [List.find?_cons, List.find?_cons]
      cases hq' : (kv.1 == q')
      · dsimp only
        exact ih
      · dsimp only

theorem lookupAssigned_upsert_other {l : List (Nat × String)} {q q' : Nat}
    {idv : String} (h : q' ≠ q) :
    ((upsertAssigned l q idv).find? (fun kv => kv.1 == q')).map (fun kv => kv.2) =
      (l.find? (fun kv => kv.1 == q')).map (fun kv => kv.2) := by
  unfold upsertAssigned
  rw [List.find?_cons_of_neg _ (by simp [Ne.symm h]), find?_key_filter l q q' h]

theorem assignId_inv_step (oracle : Nat → Option String) (st : TabRegistryState)
    (q : Nat) (id : String) (P : List Nat) (hq : q ∈ P)
    (hfresh : ∀ n, id ≠ freshLocalId n)
    (hor : ∀ q' ∈ P, oracle q' ≠ some id)
    (h1 : ∀ kv ∈ st.rev, kv.1 ≠ id)
    (h2 : ∀ q' ∈ P, lookupAssigned st q' ≠ some id) :
    (∀ kv ∈ (assignId oracle st q).2.rev, kv.1 ≠ id) ∧
    (∀ q' ∈ P, lookupAssigned (assignId oracle st q).2 q' ≠ some id) := by
  unfold assignId
  cases ho : oracle q with
  | some tid =>
    dsimp only
    have htid : tid ≠ id := by
      intro he
      exact hor q hq (by rw [ho, he])
    constructor
    · intro kv hkv
      rcases List.mem_cons.mp hkv with rfl | hkv'
      · exact htid
      · exact h1 kv (List.mem_of_mem_filter hkv')
    · intro q' hq'
      by_cases hqq : q' = q
      · subst hqq
        unfold lookupAssigned upsertAssigned
        simp [htid]
      · unfold lookupAssigned
        dsimp only
        rw [lookupAssigned_upsert_other hqq]
        exact h2 q' hq'
  | none =>
    dsimp only
    have htid : freshLocalId (st.counter + 1) ≠ id := fun he => hfresh _ he.symm
    constructor
    · intro kv hkv
      rcases List.mem_cons.mp hkv with rfl | hkv'
      · exact htid
      · exact h1 kv (List.mem_of_mem_filter hkv')
    · intro q' hq'
      by_cases hqq : q' = q
      · subst hqq
        unfold lookupAssigned upsertAssigned
        simp [htid]
      · unfold lookupAssigned
        dsimp only
        rw [lookupAssigned_upsert_other hqq]
        exact h2 q' hq'

theorem refresh_fold_inv (oracle : Nat → Option String) (id : String) (P : List Nat)
    (hfresh : ∀ n, id ≠ freshLocalId n) (hor : ∀ q ∈ P, oracle q ≠ some id) :
    ∀ (pages : List Nat), (∀ q ∈ pages, q ∈ P) →
    ∀ st : TabRegistryState, (∀ kv ∈ st.rev, kv.1 ≠ id) →
      (∀ q ∈ P, lookupAssigned st q ≠ some id) →
      ∀ kv ∈ (pages.foldl (fun acc pg => (getId oracle acc pg).2) st).rev, kv.1 ≠ id := by
  intro pages
  induction pages with
  | nil =>
    intro _ st h1 _
    simpa using h1
  | cons q rest ih =>
    intro hsub st h1 h2
    simp only [List.foldl_cons]
    have hq : q ∈ P := hsub q (by simp)
    have hstep : (∀ kv ∈ (getId oracle st q).2.rev, kv.1 ≠ id) ∧
        (∀ q' ∈ P, lookupAssigned (getId oracle st q).2 q' ≠ some id) := by
      rcases getId_state_cases oracle st q with hst | hst
      · rw [hst]
        exact ⟨h1, h2⟩
      · rw [hst]
        exact assignId_inv_step oracle st q id P hq hfresh hor h1 h2
    exact ih (fun x hx => hsub x (by simp [hx])) _ hstep.1 hstep.2

/-- C9: tab identity is stable — a `getId` result is a fixpoint (repeated
calls return the same id and state), and after a page is closed and
`refresh` runs on a snapshot without it, its id no longer resolves through
`getPage` (given that the id belonged only to the closed page and cannot be
re-minted for a surviving page). -/
theorem tab_identity (oracle : Nat → Option String) :
    (∀ (s : TabRegistryState) (page : Nat) (id : String) (s1 : TabRegistryState),
      getId oracle s page = (id, s1) → id ≠ "" → getId oracle s1 page = (id, s1)) ∧
    (∀ (s : TabRegistryState) (page : Nat) (id : String) (pages : List Nat),
      (∀ q, (id, q) ∈ s.rev → q = page) →
      page ∉ pages →
      (∀ q ∈ pages, lookupAssigned s q ≠ some id) →
      (∀ q ∈ pages, oracle q ≠ some id) →
      (∀ n, id ≠ freshLocalId n) →
      getPage (refreshReg oracle pages s) id = none) := by
  constructor
  · intro s page id s1 h hid
    unfold getId at h
    cases hl : lookupAssigned s page with
    | some id0 =>
      rw [hl] at h
      dsimp only at h
      by_cases h0 : id0 ≠ ""
      · rw [if_pos h0] at h
        obtain ⟨h1, h2⟩ := Prod.mk.injEq .. ▸ h
        rw [← h2, ← h1]
        exact getId_memo_hit hl h0
      · rw [if_neg h0] at h
        exact getId_memo_hit (assignId_lookup h) hid
    | none =>
      rw [hl] at h
      dsimp only at h
      exact getId_memo_hit (assignId_lookup h) hid
  · intro s page id pages hrev hpg hassigned hor hfresh
    unfold refreshReg
    dsimp only
    have h1 : ∀ kv ∈ s.rev.filter (fun kv => pages.contains kv.2), kv.1 ≠ id := by
      intro kv hkv hk
      have hmem := List.mem_of_mem_filter hkv
      have hcont := List.of_mem_filter hkv
      have hkpage : kv.2 = page := by
        apply hrev kv.2
        have : kv = (id, kv.2) := by
          rcases kv with ⟨a, b⟩
          simp at hk
          simp [hk]
        rw [← this]
        exact hmem
      rw [hkpage] at hcont
      simp at hcont
      exact hpg hcont
    have hres := refresh_fold_inv oracle id pages hfresh hor pages (fun x hx => hx)
      { s with rev := s.rev.filter (fun kv => pages.contains kv.2) } h1
      (by
        intro q hq
        exact hassigned q hq)
    unfold getPage
    rw [List.find?_eq_none.mpr (by
      intro kv hkv
      simpa using hres kv hkv)]
    rfl

def oracleDemo : Nat → Option String := fun q => if q == 5 then some "cdp-5" else none

def regDemo : TabRegistryState :=
  { assigned := [(5, "cdp-5")], rev := [("cdp-5", 5)], counter := 0,
    lastFocusedTabId := none }

theorem tab_identity_witness :
    getId oracleDemo regDemo 5 = ("cdp-5", regDemo) ∧
    getPage (refreshReg oracleDemo [7] regDemo) "cdp-5" = none := by
  obtain ⟨hstab, hclosed⟩ := tab_identity oracleDemo
  constructor
  · exact hstab regDemo 5 "cdp-5" regDemo (by decide) (by decide)
  · apply hclosed regDemo 5 "cdp-5" [7]
    · intro q hq
      simp [regDemo] at hq
      exact hq
    · decide
    · intro q hq
      simp at hq
      subst hq
      decide
    · intro q hq
      simp at hq
      subst hq
      decide
    · intro n h
      have hd := congrArg String.data h
      rw [freshLocalId, String.data_append] at hd
      simp at hd

end Tabnab
